import Mathlib

/-!
Verification of the subtitle format converter (`format_converter.py`).

The converter works on Python `str` values; we model a string as a `List Char`
(named `Line` when it denotes a single physical line).  Python's
`str.strip`, `str.split('\n')`, `'\n'.join`, `str.isdigit`, `str.replace`,
`in` (substring test) and `str.startswith` are modelled character by
character below, restricted to ASCII (all behaviour relevant to the
converter).  The two scanning loops of `_srt_to_vtt` and `_vtt_to_srt` are
translated as structural one-line-per-step scanners whose mode records the
position inside the loop body (seeking a cue / expecting a timing line /
collecting text), exactly mirroring the mutable-index loops of the source.
-/

/-- Model of a Python string: a list of characters.  A value of this type
named as a "line" holds one physical line (no newline character). -/
abbrev Line := List Char

/-- Model of the ASCII whitespace characters recognised by Python
`str.strip()` (space, tab, newline, carriage return, vertical tab, form
feed). -/
def isWS (c : Char) : Bool :=
  c == ' ' || c == '\t' || c == '\n' || c == '\r' || c == Char.ofNat 11 || c == Char.ofNat 12

/-- Model of Python `str.strip()`: remove leading and trailing whitespace. -/
def stripL (s : Line) : Line :=
  ((s.dropWhile isWS).reverse.dropWhile isWS).reverse

/-- Model of Python `s.split('\n')`: split at every newline character; the
empty string yields `[""]`, matching Python. -/
def splitLines : Line → List Line
  | [] => [[]]
  | c :: rest =>
    match splitLines rest with
    | [] => [[]]
    | l :: ls => if c = '\n' then [] :: l :: ls else (c :: l) :: ls

/-- Model of Python `'\n'.join(lines)`. -/
def joinLines : List Line → Line
  | [] => []
  | [l] => l
  | l :: l2 :: ls => l ++ '\n' :: joinLines (l2 :: ls)

/-- Model of Python `needle in haystack` (substring containment). -/
def containsSub (needle : Line) : Line → Bool
  | [] => needle.isEmpty
  | c :: rest => needle.isPrefixOf (c :: rest) || containsSub needle rest

/-- Model of Python `str.isdigit()` (ASCII): nonempty and all digits. -/
def isAllDigits (s : Line) : Bool :=
  !s.isEmpty && s.all (·.isDigit)

/-- Model of Python `s.replace(a, b)` for single characters `a`, `b`. -/
def replaceChar (a b : Char) (s : Line) : Line :=
  s.map fun c => if c = a then b else c

/-- Model of Python `str(n)` for a natural number. -/
def natLine (n : Nat) : Line :=
  (Nat.repr n).data

/-- The timing-separator token `-->` looked for by the converter. -/
def arrow : Line := ['-', '-', '>']

/-- Scanner mode for the `_srt_to_vtt` loop: `seek` is the top of the
`while` loop, `timing` is the position right after a digit-only line was
consumed (the next line is taken as the timing line), `text` is the inner
text-collecting loop. -/
inductive SrtGMode where
  | seek : SrtGMode
  | timing : SrtGMode
  | text : SrtGMode

/-- Line scanner of `FormatConverter._srt_to_vtt` (source lines 74-110):
one step per physical line, emitting the VTT body lines in the order the
source appends them to `vtt_lines`.  A block is entered only at a
digit-only line; the following line is consumed as the timing line and its
commas become periods; subsequent nonempty non-digit lines are the cue
text; a blank terminator line is emitted after each cue. -/
def srtGoS : SrtGMode → List Line → List Line
  | .seek, [] => []
  | .timing, [] => []
  | .text, [] => [[]]
  | .seek, x :: r =>
    let s := stripL x
    if s.isEmpty then srtGoS .seek r
    else if isAllDigits s then srtGoS .timing r
    else srtGoS .seek r
  | .timing, x :: r =>
    replaceChar ',' '.' (stripL x) :: srtGoS .text r
  | .text, x :: r =>
    let s := stripL x
    if s.isEmpty then [] :: srtGoS .seek r
    else if isAllDigits s then [] :: srtGoS .timing r
    else s :: srtGoS .text r

/-- Model of `FormatConverter._srt_to_vtt`: strip, split into lines, scan,
prepend the `WEBVTT` header and blank line, join with newlines. -/
def srt_to_vtt (content : Line) : Line :=
  joinLines ("WEBVTT".data :: [] :: srtGoS .seek (splitLines (stripL content)))

/-- Scanner mode for the `_vtt_to_srt` loop: `seek n` is the top of the
`while` loop with `subtitle_number = n`; `text n` is the inner
text-collecting loop after the cue numbered `n - 1` was opened. -/
inductive VttGMode where
  | seek : Nat → VttGMode
  | text : Nat → VttGMode

/-- Line scanner of `FormatConverter._vtt_to_srt` (source lines 122-160):
one step per physical line, emitting the SRT lines in the order the source
appends them to `srt_lines`.  Header/metadata/blank lines are skipped; a
line containing `-->` opens a cue numbered `n` with periods replaced by
commas; text lines accumulate until a blank line or another `-->` line,
after which a blank terminator is emitted and the breaking line is handled
as the top of the loop would handle it. -/
def vttGoS : VttGMode → List Line → List Line
  | .seek _, [] => []
  | .text _, [] => [[]]
  | .seek n, x :: r =>
    let s := stripL x
    if "WEBVTT".data.isPrefixOf s || "NOTE".data.isPrefixOf s || s.isEmpty then
      vttGoS (.seek n) r
    else if containsSub arrow s then
      natLine n :: replaceChar '.' ',' s :: vttGoS (.text (n + 1)) r
    else vttGoS (.seek n) r
  | .text n, x :: r =>
    let s := stripL x
    if s.isEmpty then [] :: vttGoS (.seek n) r
    else if containsSub arrow s then
      [] :: (if "WEBVTT".data.isPrefixOf s || "NOTE".data.isPrefixOf s then
               vttGoS (.seek n) r
             else natLine n :: replaceChar '.' ',' s :: vttGoS (.text (n + 1)) r)
    else s :: vttGoS (.text n) r

/-- Model of `FormatConverter._vtt_to_srt`: strip, split into lines, scan
with the subtitle counter starting at 1, join with newlines. -/
def vtt_to_srt (content : Line) : Line :=
  joinLines (vttGoS (.seek 1) (splitLines (stripL content)))

/-- Model of `FormatConverter.convert_content` (source lines 26-34):
identity short-circuit first, then the two supported directions, otherwise
a `ValueError` carrying the unsupported-conversion message. -/
def convert_content (content : Line) (from_format to_format : String) :
    Except String Line :=
  if from_format = to_format then .ok content
  else if from_format = "srt" ∧ to_format = "vtt" then .ok (srt_to_vtt content)
  else if from_format = "vtt" ∧ to_format = "srt" then .ok (vtt_to_srt content)
  else .error ("Unsupported conversion: " ++ from_format ++ " to " ++ to_format)

/-- Model of `FormatConverter.validate_srt` (source lines 170-183): some
line of the stripped content contains both `-->` and a comma. -/
def validate_srt (content : Line) : Bool :=
  (splitLines (stripL content)).any fun line =>
    containsSub arrow line && line.contains ','

/-- Model of `FormatConverter.validate_vtt` (source lines 185-194): one of
the first three lines of the stripped content starts (after stripping the
line) with `WEBVTT`, and some line contains both `-->` and a period. -/
def validate_vtt (content : Line) : Bool :=
  ((splitLines (stripL content)).take 3).any
      (fun line => "WEBVTT".data.isPrefixOf (stripL line))
    && (splitLines (stripL content)).any
      (fun line => containsSub arrow line && line.contains '.')

/-- Cue-extraction mode matching `SrtGMode`: in text-collecting mode it
carries the timing line of the open cue and the already collected text
lines (in reverse). -/
inductive SrtCMode where
  | seek : SrtCMode
  | timing : SrtCMode
  | text : Line → List Line → SrtCMode

/-- Structured view of the `_srt_to_vtt` scan: the sequence of cues
(timing line as emitted, i.e. commas replaced by periods, paired with the
list of text lines) that the scan recovers. -/
def srtCuesS : SrtCMode → List Line → List (Line × List Line)
  | .seek, [] => []
  | .timing, [] => []
  | .text t acc, [] => [(t, acc.reverse)]
  | .seek, x :: r =>
    let s := stripL x
    if s.isEmpty then srtCuesS .seek r
    else if isAllDigits s then srtCuesS .timing r
    else srtCuesS .seek r
  | .timing, x :: r =>
    srtCuesS (.text (replaceChar ',' '.' (stripL x)) []) r
  | .text t acc, x :: r =>
    let s := stripL x
    if s.isEmpty then (t, acc.reverse) :: srtCuesS .seek r
    else if isAllDigits s then (t, acc.reverse) :: srtCuesS .timing r
    else srtCuesS (.text t (s :: acc)) r

/-- Cues recovered by an `srt`-to-`vtt` conversion from the given lines. -/
def srtCues (l : List Line) : List (Line × List Line) :=
  srtCuesS .seek l

/-- Cue-extraction mode matching `VttGMode`. -/
inductive VttCMode where
  | seek : VttCMode
  | text : Line → List Line → VttCMode

/-- Structured view of the `_vtt_to_srt` scan: the sequence of cues
(timing line as emitted, i.e. periods replaced by commas, paired with the
list of text lines) that the scan recovers. -/
def vttCuesS : VttCMode → List Line → List (Line × List Line)
  | .seek, [] => []
  | .text t acc, [] => [(t, acc.reverse)]
  | .seek, x :: r =>
    let s := stripL x
    if "WEBVTT".data.isPrefixOf s || "NOTE".data.isPrefixOf s || s.isEmpty then
      vttCuesS .seek r
    else if containsSub arrow s then
      vttCuesS (.text (replaceChar '.' ',' s) []) r
    else vttCuesS .seek r
  | .text t acc, x :: r =>
    let s := stripL x
    if s.isEmpty then (t, acc.reverse) :: vttCuesS .seek r
    else if containsSub arrow s then
      (t, acc.reverse) :: (if "WEBVTT".data.isPrefixOf s || "NOTE".data.isPrefixOf s then
                             vttCuesS .seek r
                           else vttCuesS (.text (replaceChar '.' ',' s) []) r)
    else vttCuesS (.text t (s :: acc)) r

/-- Cues recovered by a `vtt`-to-`srt` conversion from the given lines. -/
def vttCues (l : List Line) : List (Line × List Line) :=
  vttCuesS .seek l

/-- Serialisation of a cue sequence in the cue-track (VTT) body layout:
per cue a timing line, the text lines, then a blank separator line. -/
def renderVttBlocks : List (Line × List Line) → List Line
  | [] => []
  | (t, xs) :: bs => t :: (xs ++ [] :: renderVttBlocks bs)

/-- Serialisation of a cue sequence in the numbered-block (SRT) layout
starting at index `n`: per cue an index line, a timing line, the text
lines, then a blank separator line. -/
def renderSrtBlocks (n : Nat) : List (Line × List Line) → List Line
  | [] => []
  | (t, xs) :: bs => natLine n :: t :: (xs ++ [] :: renderSrtBlocks (n + 1) bs)

/-- Invariant on an `srt` cue-extraction mode: a partially built cue has a
comma-free timing line. -/
def modeNoComma : SrtCMode → Prop
  | .text t _ => ',' ∉ t
  | _ => True

/-- Invariant on a `vtt` cue-extraction mode: a partially built cue has a
period-free timing line. -/
def modeNoPeriod : VttCMode → Prop
  | .text t _ => '.' ∉ t
  | _ => True

/-- Well-formedness of a timing line for the round-trip statement: a line
with no surrounding whitespace, beginning with a digit, containing the
`-->` token, and free of periods and newlines.  Every valid comma
timestamp line `HH:MM:SS,mmm --> HH:MM:SS,mmm` satisfies it. -/
def wfTiming (t : Line) : Prop :=
  stripL t = t ∧ t ≠ [] ∧ (t.headD ' ').isDigit = true
    ∧ containsSub arrow t = true ∧ '.' ∉ t ∧ '\n' ∉ t

/-- Well-formedness of a single cue text line for the round-trip
statement: non-blank, no surrounding whitespace, not digit-only, not
containing the `-->` token, and newline-free. -/
def wfText (x : Line) : Prop :=
  stripL x = x ∧ x ≠ [] ∧ isAllDigits x = false
    ∧ containsSub arrow x = false ∧ '\n' ∉ x

/-- Well-formedness of a numbered-block cue `(index, timing, text)`. -/
def wfCue (c : Line × Line × Line) : Prop :=
  isAllDigits c.1 = true ∧ wfTiming c.2.1 ∧ wfText c.2.2

/-- Physical lines of a numbered-block document: per cue an index line, a
timing line, one text line, then a blank separator line. -/
def srtDocLines : List (Line × Line × Line) → List Line
  | [] => []
  | c :: cs => c.1 :: c.2.1 :: c.2.2 :: [] :: srtDocLines cs

/-- A numbered-block (SRT) document rendered from cues. -/
def renderSrtDoc (cues : List (Line × Line × Line)) : Line :=
  joinLines (srtDocLines cues)

/-- The same lines without the final blank separator. -/
def srtDocCore : List (Line × Line × Line) → List Line
  | [] => []
  | [c] => [c.1, c.2.1, c.2.2]
  | c :: cs => c.1 :: c.2.1 :: c.2.2 :: [] :: srtDocCore cs

/-- VTT body lines produced from the cues (timing with periods), with the
blank terminator after every cue. -/
def vttBodyFull : List (Line × Line × Line) → List Line
  | [] => []
  | c :: cs => replaceChar ',' '.' c.2.1 :: c.2.2 :: [] :: vttBodyFull cs

/-- The same lines without the final blank terminator. -/
def vttBodyCore : List (Line × Line × Line) → List Line
  | [] => []
  | [c] => [replaceChar ',' '.' c.2.1, c.2.2]
  | c :: cs => replaceChar ',' '.' c.2.1 :: c.2.2 :: [] :: vttBodyCore cs

/-- Decidability of timing-line well-formedness. -/
instance (t : Line) : Decidable (wfTiming t) := by
  unfold wfTiming
  infer_instance

/-- Decidability of text-line well-formedness. -/
instance (x : Line) : Decidable (wfText x) := by
  unfold wfText
  infer_instance

/-- Decidability of cue well-formedness. -/
instance (c : Line × Line × Line) : Decidable (wfCue c) := by
  unfold wfCue
  infer_instance

/-- The validators' per-document test: some line has the `-->` token and
the given separator character. -/
def hasTokenLine (ch : Char) (s : Line) : Bool :=
  (splitLines s).any fun l => containsSub arrow l && l.contains ch

/-- Follows the claim's wording for the cue-track validator: at least one
of the first three lines of the content (as given, unstripped) starts with
`WEBVTT`, and some line contains both `-->` and a period. -/
def claimedValidateVtt (s : Line) : Bool :=
  ((splitLines s).take 3).any (fun line => "WEBVTT".data.isPrefixOf line)
    && (splitLines s).any (fun line => containsSub arrow line && line.contains '.')

/-- C1: for every input string and every supported convention X
(`srt` or `vtt`), `convert(text, X, X)` returns the input unchanged,
byte-for-byte, with no parse/serialize pass (the identity short-circuit is
the first test in `convert_content`). -/
theorem identity_conversion (text : Line) (fmt : String)
    (h : fmt = "srt" ∨ fmt = "vtt") :
    convert_content text fmt fmt = Except.ok text := by
  unfold convert_content
  rw [if_pos rfl]

/-- Witness for C1 at a concrete (malformed) input and the `srt`
convention. -/
theorem identity_conversion_witness :
    ("srt" = "srt" ∨ "srt" = "vtt")
      ∧ convert_content "no cues here ]] ,,".data "srt" "srt"
          = Except.ok "no cues here ]] ,,".data :=
  ⟨Or.inl rfl, identity_conversion "no cues here ]] ,,".data "srt" (Or.inl rfl)⟩

/-- C3: conversion along a supported distinct pair always returns a string
(the model is a total function and `convert_content` answers `ok`), and the
empty string converts to the header-only document for `srt` to `vtt` and to
the empty document for `vtt` to `srt`. -/
theorem conversion_total (content : Line) :
    convert_content content "srt" "vtt" = Except.ok (srt_to_vtt content)
      ∧ convert_content content "vtt" "srt" = Except.ok (vtt_to_srt content)
      ∧ convert_content [] "srt" "vtt" = Except.ok "WEBVTT\n".data
      ∧ convert_content [] "vtt" "srt" = Except.ok [] :=
  ⟨rfl, rfl, rfl, rfl⟩

/-- C7: an unsupported source/target pair, and nothing else, makes
`convert_content` signal an error; the error value is the
unsupported-conversion message, which does not depend on the content, so it
is raised before any parsing. -/
theorem unsupported_pair_error (content : Line) (f t : String) :
    (f ≠ t ∧ ¬(f = "srt" ∧ t = "vtt") ∧ ¬(f = "vtt" ∧ t = "srt") →
      convert_content content f t
        = Except.error ("Unsupported conversion: " ++ f ++ " to " ++ t))
      ∧ ∀ e, convert_content content f t = Except.error e →
          f ≠ t ∧ ¬(f = "srt" ∧ t = "vtt") ∧ ¬(f = "vtt" ∧ t = "srt")
            ∧ e = "Unsupported conversion: " ++ f ++ " to " ++ t := by
  unfold convert_content
  constructor
  · rintro ⟨h, h1, h2⟩
    rw [if_neg h, if_neg h1, if_neg h2]
  · intro e he
    by_cases hft : f = t
    · rw [if_pos hft] at he; cases he
    · rw [if_neg hft] at he
      by_cases h1 : f = "srt" ∧ t = "vtt"
      · rw [if_pos h1] at he; cases he
      · rw [if_neg h1] at he
        by_cases h2 : f = "vtt" ∧ t = "srt"
        · rw [if_pos h2] at he; cases he
        · rw [if_neg h2] at he
          cases he
          exact ⟨hft, h1, h2, rfl⟩

/-- Witness for C7 at the concrete unsupported pair `("srt", "foo")`. -/
theorem unsupported_pair_error_witness :
    convert_content "x".data "srt" "foo"
      = Except.error ("Unsupported conversion: " ++ "srt" ++ " to " ++ "foo") :=
  (unsupported_pair_error "x".data "srt" "foo").1
    ⟨by decide, by decide, by decide⟩

/-- C9: converting `"1\n00:00:01,000 --> 00:00:03,000\nHello world\n"` from
`srt` to `vtt` yields a document whose lines contain
`00:00:01.000 --> 00:00:03.000` immediately followed by `Hello world`
(indeed the full output is the five lines shown). -/
theorem example_srt_to_vtt :
    splitLines (srt_to_vtt "1\n00:00:01,000 --> 00:00:03,000\nHello world\n".data)
        = ["WEBVTT".data, [], "00:00:01.000 --> 00:00:03.000".data,
           "Hello world".data, []]
      ∧ List.IsInfix ["00:00:01.000 --> 00:00:03.000".data, "Hello world".data]
          (splitLines
            (srt_to_vtt "1\n00:00:01,000 --> 00:00:03,000\nHello world\n".data)) :=
  ⟨by decide, ["WEBVTT".data, []], [[]], by decide⟩

/-- C10: the identity short-circuit precedes convention validation, so
`convert(content, s, s)` returns the content unchanged for every name `s`
(supported or not), and an error implies the two names differ. -/
theorem identity_before_validation (content : Line) (fmt f t e : String) :
    convert_content content fmt fmt = Except.ok content
      ∧ (convert_content content f t = Except.error e → f ≠ t) := by
  constructor
  · unfold convert_content; rw [if_pos rfl]
  · intro he hft
    subst hft
    unfold convert_content at he
    rw [if_pos rfl] at he
    cases he

/-- Witness for C10 at the unsupported name `foo` and at the error-giving
pair `("srt", "foo")`. -/
theorem identity_before_validation_witness :
    convert_content "x".data "foo" "foo" = Except.ok "x".data
      ∧ ("srt" : String) ≠ "foo" :=
  ⟨(identity_before_validation "x".data "foo" "srt" "foo"
      ("Unsupported conversion: " ++ "srt" ++ " to " ++ "foo")).1,
   (identity_before_validation "x".data "foo" "srt" "foo"
      ("Unsupported conversion: " ++ "srt" ++ " to " ++ "foo")).2 rfl⟩

/-- Refinement of the `srt`-to-`vtt` scanner: the emitted line sequence is
exactly the serialisation of the recovered cue sequence, in every scanner
mode (in text mode, relative to the partial cue carried by the mode). -/
theorem srt_ref (l : List Line) :
    (srtGoS .seek l = renderVttBlocks (srtCuesS .seek l))
      ∧ (srtGoS .timing l = renderVttBlocks (srtCuesS .timing l))
      ∧ (∀ t acc, t :: (acc.reverse ++ srtGoS .text l)
          = renderVttBlocks (srtCuesS (.text t acc) l)) := by
  induction l with
  | nil =>
    refine ⟨rfl, rfl, fun t acc => ?_⟩
    simp [srtGoS, srtCuesS, renderVttBlocks]
  | cons x r ih =>
    obtain ⟨ih1, ih2, ih3⟩ := ih
    refine ⟨?_, ?_, fun t acc => ?_⟩
    · simp only [srtGoS, srtCuesS]
      split_ifs
      · exact ih1
      · exact ih2
      · exact ih1
    · simp only [srtGoS, srtCuesS]
      rw [← ih3]
      simp
    · simp only [srtGoS, srtCuesS]
      split_ifs
      · simp only [renderVttBlocks]
        rw [← ih1]
      · simp only [renderVttBlocks]
        rw [← ih2]
      · rw [← ih3]
        simp

/-- Refinement of the `vtt`-to-`srt` scanner: the emitted line sequence is
exactly the numbered serialisation of the recovered cue sequence, with
indices counted up from the scanner mode's counter. -/
theorem vtt_ref (l : List Line) :
    (∀ n, vttGoS (.seek n) l = renderSrtBlocks n (vttCuesS .seek l))
      ∧ (∀ n t acc, natLine n :: t :: (acc.reverse ++ vttGoS (.text (n + 1)) l)
          = renderSrtBlocks n (vttCuesS (.text t acc) l)) := by
  induction l with
  | nil =>
    refine ⟨fun n => rfl, fun n t acc => ?_⟩
    simp [vttGoS, vttCuesS, renderSrtBlocks]
  | cons x r ih =>
    obtain ⟨ih1, ih2⟩ := ih
    refine ⟨fun n => ?_, fun n t acc => ?_⟩
    · simp only [vttGoS, vttCuesS]
      split_ifs
      · exact ih1 n
      · rw [← ih2 n]
        simp
      · exact ih1 n
    · simp only [vttGoS, vttCuesS]
      split_ifs
      · simp only [renderSrtBlocks]
        rw [← ih1 (n + 1)]
      · simp only [renderSrtBlocks]
        rw [← ih1 (n + 1)]
      · simp only [renderSrtBlocks]
        rw [← ih2 (n + 1)]
        simp
      · rw [← ih2 n t (_ :: acc)]
        simp

/-- Replacing every `a` by a different `b` leaves no `a` in the result. -/
theorem not_mem_replaceChar (a b : Char) (h : a ≠ b) (s : Line) :
    a ∉ replaceChar a b s := by
  intro hm
  simp only [replaceChar, List.mem_map] at hm
  obtain ⟨c, _, hc⟩ := hm
  by_cases hca : c = a
  · rw [if_pos hca] at hc
    exact h hc.symm
  · rw [if_neg hca] at hc
    exact hca hc

/-- Every cue recovered by the `srt`-to-`vtt` scan carries a timing line
with no comma (all commas were replaced by periods). -/
theorem srtCuesS_no_comma (l : List Line) :
    ∀ m, modeNoComma m → ∀ b ∈ srtCuesS m l, ',' ∉ b.1 := by
  induction l with
  | nil =>
    intro m hm b hb
    cases m with
    | seek => simp [srtCuesS] at hb
    | timing => simp [srtCuesS] at hb
    | text t acc =>
      simp only [srtCuesS, List.mem_singleton] at hb
      rw [hb]
      exact hm
  | cons x r ih =>
    intro m hm b hb
    cases m with
    | seek =>
      simp only [srtCuesS] at hb
      split_ifs at hb
      · exact ih .seek trivial b hb
      · exact ih .timing trivial b hb
      · exact ih .seek trivial b hb
    | timing =>
      simp only [srtCuesS] at hb
      exact ih (.text _ []) (not_mem_replaceChar ',' '.' (by decide) _) b hb
    | text t acc =>
      simp only [srtCuesS] at hb
      split_ifs at hb
      · rcases List.mem_cons.mp hb with rfl | hb2
        · exact hm
        · exact ih .seek trivial b hb2
      · rcases List.mem_cons.mp hb with rfl | hb2
        · exact hm
        · exact ih .timing trivial b hb2
      · exact ih (.text t (stripL x :: acc)) hm b hb

/-- Every cue recovered by the `vtt`-to-`srt` scan carries a timing line
with no period (all periods were replaced by commas). -/
theorem vttCuesS_no_period (l : List Line) :
    ∀ m, modeNoPeriod m → ∀ b ∈ vttCuesS m l, '.' ∉ b.1 := by
  induction l with
  | nil =>
    intro m hm b hb
    cases m with
    | seek => simp [vttCuesS] at hb
    | text t acc =>
      simp only [vttCuesS, List.mem_singleton] at hb
      rw [hb]
      exact hm
  | cons x r ih =>
    intro m hm b hb
    cases m with
    | seek =>
      simp only [vttCuesS] at hb
      split_ifs at hb
      · exact ih .seek trivial b hb
      · exact ih (.text _ []) (not_mem_replaceChar '.' ',' (by decide) _) b hb
      · exact ih .seek trivial b hb
    | text t acc =>
      simp only [vttCuesS] at hb
      split_ifs at hb
      · rcases List.mem_cons.mp hb with rfl | hb2
        · exact hm
        · exact ih .seek trivial b hb2
      · rcases List.mem_cons.mp hb with rfl | hb2
        · exact hm
        · exact ih .seek trivial b hb2
      · rcases List.mem_cons.mp hb with rfl | hb2
        · exact hm
        · exact ih (.text _ []) (not_mem_replaceChar '.' ',' (by decide) _) b hb2
      · exact ih (.text t (stripL x :: acc)) hm b hb

/-- C5: the output of each direction refines the serialisation of its
recovered cue sequence, and there every timing line emitted by the
`vtt`-to-`srt` direction is period-free (its fractional separators are
commas), while every timing line emitted by the `srt`-to-`vtt` direction is
comma-free (its fractional separators are periods), for all inputs. -/
theorem timing_punctuation (content : Line) :
    (srt_to_vtt content
        = joinLines ("WEBVTT".data :: [] :: renderVttBlocks (srtCues (splitLines (stripL content))))
      ∧ ∀ b ∈ srtCues (splitLines (stripL content)), ',' ∉ b.1)
      ∧ (vtt_to_srt content
          = joinLines (renderSrtBlocks 1 (vttCues (splitLines (stripL content))))
        ∧ ∀ b ∈ vttCues (splitLines (stripL content)), '.' ∉ b.1) := by
  refine ⟨⟨?_, ?_⟩, ?_, ?_⟩
  · unfold srt_to_vtt srtCues
    rw [(srt_ref _).1]
  · exact srtCuesS_no_comma _ .seek trivial
  · unfold vtt_to_srt vttCues
    rw [(vtt_ref _).1 1]
  · exact vttCuesS_no_period _ .seek trivial

/-- Witness for C5: on a concrete input in each direction, the first
emitted timing line indeed has the required separator punctuation. -/
theorem timing_punctuation_witness :
    ',' ∉ ("00:00:01.000 --> 00:00:02.000".data : Line)
      ∧ '.' ∉ ("00:00:01,000 --> 00:00:02,000".data : Line) :=
  ⟨(timing_punctuation "1\n00:00:01,000 --> 00:00:02,000\nHi".data).1.2
      ("00:00:01.000 --> 00:00:02.000".data, ["Hi".data]) (by decide),
   (timing_punctuation "WEBVTT\n\n00:00:01.000 --> 00:00:02.000\nHi".data).2.2
      ("00:00:01,000 --> 00:00:02,000".data, ["Hi".data]) (by decide)⟩

/-- Serialising from index `n` uses exactly the indices `n, n+1, ...`:
the numbered-block layout written as an explicit zip with `range'`. -/
theorem renderSrtBlocks_eq_zip (bs : List (Line × List Line)) :
    ∀ n, renderSrtBlocks n bs
      = (List.zipWith (fun k b => natLine k :: b.1 :: (b.2 ++ [[]]))
          (List.range' n bs.length) bs).flatten := by
  induction bs with
  | nil => intro n; rfl
  | cons b bs ih =>
    intro n
    rw [List.length_cons, List.range'_succ]
    simp only [List.zipWith_cons_cons, List.flatten_cons, renderSrtBlocks]
    rw [ih (n + 1)]
    simp

/-- C6: for every input, the numbered-block document produced by the
`vtt`-to-`srt` conversion is the serialisation of its recovered cues with
index lines exactly `1, 2, ..., N` (`N` = number of cues), in that order,
regardless of the input's own markers. -/
theorem index_renumbering (content : Line) :
    vtt_to_srt content
      = joinLines ((List.zipWith (fun k b => natLine k :: b.1 :: (b.2 ++ [[]]))
          (List.range' 1 (vttCues (splitLines (stripL content))).length)
          (vttCues (splitLines (stripL content)))).flatten) := by
  unfold vtt_to_srt vttCues
  rw [(vtt_ref _).1 1, renderSrtBlocks_eq_zip]

/-- Counterexample to C4: a block with a timing line but no leading
digit-only sequence-marker line yields no cue at all — the output is the
bare header and the timing never appears in it. -/
theorem missing_index_counterexample :
    srt_to_vtt "00:00:01,000 --> 00:00:02,000\nText".data = "WEBVTT\n".data
      ∧ srtCues (splitLines (stripL "00:00:01,000 --> 00:00:02,000\nText".data)) = []
      ∧ containsSub "00:00:01.000".data
          (srt_to_vtt "00:00:01,000 --> 00:00:02,000\nText".data) = false := by
  decide

/-- The seeking scanner emits nothing when no line is digit-only. -/
theorem srtGoS_seek_no_digit (l : List Line)
    (h : ∀ x ∈ l, isAllDigits (stripL x) = false) :
    srtGoS .seek l = [] := by
  induction l with
  | nil => rfl
  | cons x r ih =>
    simp only [srtGoS]
    split_ifs with h1 h2
    · exact ih fun y hy => h y (List.mem_cons_of_mem x hy)
    · rw [h x (List.mem_cons_self x r)] at h2
      cases h2
    · exact ih fun y hy => h y (List.mem_cons_of_mem x hy)

/-- C4 amended: in the `srt`-to-`vtt` direction a block that lacks a
leading digit-only line is not treated as a cue; its lines are skipped one
by one, so a document with no digit-only line produces zero cues and the
header-only output. -/
theorem missing_index_skipped (content : Line)
    (h : ∀ l ∈ splitLines (stripL content), isAllDigits (stripL l) = false) :
    srt_to_vtt content = "WEBVTT\n".data := by
  unfold srt_to_vtt
  rw [srtGoS_seek_no_digit _ h]
  decide

/-- Witness for the amended C4 at the concrete index-less document. -/
theorem missing_index_skipped_witness :
    (∀ l ∈ splitLines (stripL "00:00:01,000 --> 00:00:02,000\nText".data),
        isAllDigits (stripL l) = false)
      ∧ srt_to_vtt "00:00:01,000 --> 00:00:02,000\nText".data = "WEBVTT\n".data :=
  ⟨by decide, missing_index_skipped _ (by decide)⟩

/-- Characterisation of the modelled whitespace characters. -/
theorem isWS_iff {c : Char} :
    isWS c = true ↔ c = ' ' ∨ c = '\t' ∨ c = '\n' ∨ c = '\r'
      ∨ c = Char.ofNat 11 ∨ c = Char.ofNat 12 := by
  simp only [isWS, Bool.or_eq_true, beq_iff_eq]
  tauto

/-- Digits are not whitespace. -/
theorem digit_not_ws {c : Char} (h : c.isDigit = true) : isWS c = false := by
  by_contra hne
  rw [Bool.not_eq_false] at hne
  rcases isWS_iff.mp hne with rfl | rfl | rfl | rfl | rfl | rfl <;>
    exact absurd h (by decide)

/-- Digits are not the initial characters of `WEBVTT`/`NOTE` nor separator
punctuation. -/
theorem digit_ne {c : Char} (h : c.isDigit = true) :
    c ≠ 'W' ∧ c ≠ 'N' ∧ c ≠ ',' ∧ c ≠ '.' := by
  refine ⟨?_, ?_, ?_, ?_⟩ <;> rintro rfl <;> exact absurd h (by decide)

/-- Dropping a leading-whitespace run does nothing when the head is not
whitespace. -/
theorem dropWhile_ws_eq_self {s : Line} (h : isWS (s.headD '0') = false) :
    s.dropWhile isWS = s := by
  cases s with
  | nil => rfl
  | cons c t =>
    simp only [List.headD_cons] at h
    rw [List.dropWhile_cons, h]
    simp

/-- The head of a reversed list is the last element. -/
theorem headD_reverse (l : Line) (d : Char) : l.reverse.headD d = l.getLastD d := by
  rw [List.headD_eq_head?_getD, List.head?_reverse, List.getLastD_eq_getLast?]

/-- Stripping does nothing when neither end is whitespace. -/
theorem stripL_eq_self {s : Line} (h1 : isWS (s.headD '0') = false)
    (h2 : isWS (s.getLastD '0') = false) : stripL s = s := by
  unfold stripL
  rw [dropWhile_ws_eq_self h1, dropWhile_ws_eq_self (by rw [headD_reverse]; exact h2),
    List.reverse_reverse]

/-- Stripping never lengthens a string. -/
theorem stripL_length_le (s : Line) : (stripL s).length ≤ s.length := by
  unfold stripL
  calc ((s.dropWhile isWS).reverse.dropWhile isWS).reverse.length
      = ((s.dropWhile isWS).reverse.dropWhile isWS).length := List.length_reverse _
    _ ≤ (s.dropWhile isWS).reverse.length :=
        (List.dropWhile_sublist isWS).length_le
    _ = (s.dropWhile isWS).length := List.length_reverse _
    _ ≤ s.length := (List.dropWhile_sublist isWS).length_le

/-- A string unchanged by stripping has non-whitespace ends. -/
theorem stripL_self_ends {s : Line} (h : stripL s = s) (hne : s ≠ []) :
    isWS (s.headD '0') = false ∧ isWS (s.getLastD '0') = false := by
  have hlen : (stripL s).length = s.length := by rw [h]
  constructor
  · by_contra hws
    rw [Bool.not_eq_false] at hws
    obtain ⟨c, t, rfl⟩ := List.exists_cons_of_ne_nil hne
    simp only [List.headD_cons] at hws
    have hd : (c :: t).dropWhile isWS = t.dropWhile isWS := by
      rw [List.dropWhile_cons, hws]; simp
    have : (stripL (c :: t)).length ≤ t.length := by
      unfold stripL
      rw [hd]
      calc ((t.dropWhile isWS).reverse.dropWhile isWS).reverse.length
          = ((t.dropWhile isWS).reverse.dropWhile isWS).length := List.length_reverse _
        _ ≤ (t.dropWhile isWS).reverse.length := (List.dropWhile_sublist isWS).length_le
        _ = (t.dropWhile isWS).length := List.length_reverse _
        _ ≤ t.length := (List.dropWhile_sublist isWS).length_le
    rw [hlen] at this
    simp at this
  · by_contra hws
    rw [Bool.not_eq_false] at hws
    have hhead : isWS (s.headD '0') = false := by
      by_contra hws2
      rw [Bool.not_eq_false] at hws2
      obtain ⟨c, t, rfl⟩ := List.exists_cons_of_ne_nil hne
      simp only [List.headD_cons] at hws2
      have hd : (c :: t).dropWhile isWS = t.dropWhile isWS := by
        rw [List.dropWhile_cons, hws2]; simp
      have : (stripL (c :: t)).length ≤ t.length := by
        unfold stripL
        rw [hd]
        calc ((t.dropWhile isWS).reverse.dropWhile isWS).reverse.length
            = ((t.dropWhile isWS).reverse.dropWhile isWS).length := List.length_reverse _
          _ ≤ (t.dropWhile isWS).reverse.length := (List.dropWhile_sublist isWS).length_le
          _ = (t.dropWhile isWS).length := List.length_reverse _
          _ ≤ t.length := (List.dropWhile_sublist isWS).length_le
      rw [hlen] at this
      simp at this
    have hld : s.dropWhile isWS = s := dropWhile_ws_eq_self hhead
    obtain ⟨c, t, hrev⟩ : ∃ c t, s.reverse = c :: t := by
      refine List.exists_cons_of_ne_nil ?_
      simp [hne]
    have hc : isWS c = false → False := by
      intro hcf
      have : s.reverse.headD '0' = c := by rw [hrev]; rfl
      rw [headD_reverse] at this
      rw [this] at hws
      rw [hws] at hcf
      cases hcf
    have hcws : isWS c = true := by
      by_contra hx
      exact hc (Bool.not_eq_true _ ▸ hx)
    have : (stripL s).length ≤ t.length := by
      unfold stripL
      rw [hld, hrev, List.dropWhile_cons, hcws]
      calc (t.dropWhile isWS).reverse.length
          = (t.dropWhile isWS).length := List.length_reverse _
        _ ≤ t.length := (List.dropWhile_sublist isWS).length_le
    have hlt : s.length = t.length + 1 := by
      have := congrArg List.length hrev
      simp at this
      omega
    rw [hlen, hlt] at this
    omega

/-- Splitting never produces an empty list of lines. -/
theorem splitLines_ne_nil (s : Line) : splitLines s ≠ [] := by
  cases s with
  | nil => simp [splitLines]
  | cons c rest =>
    simp only [splitLines]
    cases h : splitLines rest with
    | nil => simp
    | cons l ls => split_ifs <;> simp

/-- A newline-free string splits into itself as the only line. -/
theorem splitLines_no_newline (l : Line) (h : '\n' ∉ l) : splitLines l = [l] := by
  induction l with
  | nil => rfl
  | cons c rest ih =>
    have hc : c ≠ '\n' := fun e => h (e ▸ List.mem_cons_self c rest)
    have hr : '\n' ∉ rest := fun m => h (List.mem_cons_of_mem _ m)
    simp only [splitLines, ih hr]
    rw [if_neg hc]

/-- Splitting after a newline-free first line peels it off. -/
theorem splitLines_newline_cons (l : Line) (h : '\n' ∉ l) (s : Line) :
    splitLines (l ++ '\n' :: s) = l :: splitLines s := by
  induction l with
  | nil =>
    simp only [List.nil_append, splitLines]
    cases hs : splitLines s with
    | nil => exact absurd hs (splitLines_ne_nil s)
    | cons a as => simp
  | cons c rest ih =>
    have hc : c ≠ '\n' := fun e => h (e ▸ List.mem_cons_self c rest)
    have hr : '\n' ∉ rest := fun m => h (List.mem_cons_of_mem _ m)
    simp only [List.cons_append, splitLines, List.append_eq, ih hr]
    rw [if_neg hc]

/-- Splitting is a left inverse of joining for newline-free lines. -/
theorem splitLines_joinLines (ls : List Line) (hne : ls ≠ [])
    (h : ∀ l ∈ ls, '\n' ∉ l) : splitLines (joinLines ls) = ls := by
  induction ls with
  | nil => cases hne rfl
  | cons l rest ih =>
    cases rest with
    | nil => exact splitLines_no_newline l (h l (List.mem_cons_self l []))
    | cons l2 ls2 =>
      show splitLines (joinLines (l :: l2 :: ls2)) = l :: l2 :: ls2
      have : joinLines (l :: l2 :: ls2) = l ++ '\n' :: joinLines (l2 :: ls2) := rfl
      rw [this, splitLines_newline_cons l (h l (List.mem_cons_self l _)),
        ih (by simp) fun y hy => h y (List.mem_cons_of_mem l hy)]

/-- Joining lines with a final blank line appends a final newline. -/
theorem joinLines_concat_nil (ls : List Line) (hne : ls ≠ []) :
    joinLines (ls ++ [[]]) = joinLines ls ++ ['\n'] := by
  induction ls with
  | nil => cases hne rfl
  | cons l rest ih =>
    cases rest with
    | nil => rfl
    | cons l2 ls2 =>
      have h1 : joinLines ((l :: l2 :: ls2) ++ [[]])
          = l ++ '\n' :: joinLines ((l2 :: ls2) ++ [[]]) := rfl
      rw [h1, ih (by simp)]
      have h2 : joinLines (l :: l2 :: ls2) = l ++ '\n' :: joinLines (l2 :: ls2) := rfl
      rw [h2]
      simp

/-- The default of `getLastD` is irrelevant for a nonempty list. -/
theorem getLastD_indep {α : Type} (l : List α) (h : l ≠ []) (d1 d2 : α) :
    l.getLastD d1 = l.getLastD d2 := by
  cases l with
  | nil => cases h rfl
  | cons a t => rw [List.getLastD_cons, List.getLastD_cons]

/-- The head of a join is the head of the first line (when nonempty). -/
theorem headD_joinLines (l : Line) (ls : List Line) (hl : l ≠ []) (d : Char) :
    (joinLines (l :: ls)).headD d = l.headD d := by
  cases ls with
  | nil => rfl
  | cons l2 ls2 =>
    obtain ⟨c, t, rfl⟩ := List.exists_cons_of_ne_nil hl
    rfl

/-- The last character of a join is the last character of the last line,
provided that line is nonempty. -/
theorem getLastD_joinLines (ls : List Line) (hlast : ls.getLastD [] ≠ []) :
    ∀ d, (joinLines ls).getLastD d = (ls.getLastD []).getLastD d := by
  induction ls with
  | nil => cases hlast rfl
  | cons l rest ih =>
    cases rest with
    | nil => intro d; rfl
    | cons l2 ls2 =>
      intro d
      have hr0 : (l :: l2 :: ls2).getLastD [] = (l2 :: ls2).getLastD [] := by
        rw [List.getLastD_cons]
        exact getLastD_indep _ (by simp) l []
      have hlast2 : (l2 :: ls2).getLastD [] ≠ [] := by rwa [hr0] at hlast
      have hj : joinLines (l :: l2 :: ls2) = l ++ '\n' :: joinLines (l2 :: ls2) := rfl
      rw [hj]
      have h2 : (l ++ '\n' :: joinLines (l2 :: ls2)).getLastD d
          = ('\n' :: joinLines (l2 :: ls2)).getLastD d := by
        rw [List.getLastD_eq_getLast?, List.getLastD_eq_getLast?,
          List.getLast?_append_of_ne_nil _ (by simp)]
      rw [h2, List.getLastD_cons, ih hlast2 '\n', hr0]
      exact getLastD_indep _ hlast2 '\n' d

/-- Substring containment as an explicit decomposition. -/
theorem containsSub_iff (n : Line) : ∀ h : Line,
    containsSub n h = true ↔ ∃ u v, h = u ++ n ++ v := by
  intro h
  induction h with
  | nil =>
    simp only [containsSub, List.isEmpty_iff]
    constructor
    · rintro rfl
      exact ⟨[], [], rfl⟩
    · rintro ⟨u, v, huv⟩
      rcases List.append_eq_nil.mp huv.symm with ⟨h1, h2⟩
      exact (List.append_eq_nil.mp h1).2
  | cons c rest ih =>
    simp only [containsSub, Bool.or_eq_true, List.isPrefixOf_iff_prefix, ih]
    constructor
    · rintro (⟨v, hv⟩ | ⟨u, v, rfl⟩)
      · exact ⟨[], v, by simp [hv]⟩
      · exact ⟨c :: u, v, rfl⟩
    · rintro ⟨u, v, huv⟩
      cases u with
      | nil =>
        refine Or.inl ⟨v, ?_⟩
        simpa using huv.symm
      | cons u0 us =>
        rw [List.cons_append, List.cons_append] at huv
        injection huv with h1 h2
        exact Or.inr ⟨us, v, h2⟩

/-- Substring containment is preserved by a character replacement that
fixes the needle. -/
theorem containsSub_replaceChar (a b : Char) (n s : Line)
    (hn : replaceChar a b n = n) (h : containsSub n s = true) :
    containsSub n (replaceChar a b s) = true := by
  obtain ⟨u, v, rfl⟩ := (containsSub_iff n s).mp h
  refine (containsSub_iff n _).mpr ⟨replaceChar a b u, replaceChar a b v, ?_⟩
  simp only [replaceChar] at hn ⊢
  rw [List.map_append, List.map_append, hn]

/-- Replacement is the identity on strings not containing the replaced
character. -/
theorem replaceChar_not_mem (a b : Char) (s : Line) (h : a ∉ s) :
    replaceChar a b s = s := by
  unfold replaceChar
  conv_rhs => rw [← List.map_id s]
  refine List.map_congr_left fun c hc => ?_
  have hca : c ≠ a := fun e => h (e ▸ hc)
  simp [hca]

/-- Replacing commas by periods and then periods by commas restores a
period-free string. -/
theorem replaceChar_roundtrip (t : Line) (h : '.' ∉ t) :
    replaceChar '.' ',' (replaceChar ',' '.' t) = t := by
  unfold replaceChar
  rw [List.map_map]
  conv_rhs => rw [← List.map_id t]
  refine List.map_congr_left fun c hc => ?_
  by_cases hc1 : c = ','
  · subst hc1
    simp
  · have hc2 : c ≠ '.' := fun e => h (e ▸ hc)
    simp [hc1, hc2]

/-- Membership in a replacement image. -/
theorem not_mem_replaceChar_of (a b c : Char) (s : Line) (hc : c ∉ s)
    (hcb : c ≠ b) : c ∉ replaceChar a b s := by
  intro hm
  simp only [replaceChar, List.mem_map] at hm
  obtain ⟨d, hd, hdc⟩ := hm
  by_cases hda : d = a
  · rw [if_pos hda] at hdc
    exact hcb hdc.symm
  · rw [if_neg hda] at hdc
    exact hc (hdc ▸ hd)

/-- Stripping commutes with replacement by non-whitespace characters. -/
theorem stripL_replaceChar (a b : Char) (ha : isWS a = false)
    (hb : isWS b = false) (s : Line) :
    stripL (replaceChar a b s) = replaceChar a b (stripL s) := by
  have hws : (fun c => isWS (if c = a then b else c)) = isWS := by
    funext c
    by_cases hca : c = a
    · subst hca
      rw [if_pos rfl, ha, hb]
    · rw [if_neg hca]
  unfold stripL replaceChar
  rw [List.dropWhile_map]
  show (((s.dropWhile _).map _).reverse.dropWhile isWS).reverse = _
  rw [← List.map_reverse, List.dropWhile_map, ← List.map_reverse]
  rw [show (isWS ∘ fun c => if c = a then b else c) = isWS from hws]

/-- A nonempty all-digits string: its content facts. -/
theorem allDigits_facts {s : Line} (h : isAllDigits s = true) :
    s ≠ [] ∧ (∀ c ∈ s, c.isDigit = true) := by
  unfold isAllDigits at h
  rw [Bool.and_eq_true, Bool.not_eq_true', List.isEmpty_eq_false, List.all_eq_true] at h
  exact ⟨h.1, fun c hc => h.2 c hc⟩

/-- An all-digits string is unchanged by stripping and newline-free. -/
theorem allDigits_strip {s : Line} (h : isAllDigits s = true) :
    stripL s = s ∧ '\n' ∉ s := by
  obtain ⟨hne, hd⟩ := allDigits_facts h
  constructor
  · refine stripL_eq_self ?_ ?_
    · obtain ⟨c, t, rfl⟩ := List.exists_cons_of_ne_nil hne
      exact digit_not_ws (hd c (List.mem_cons_self c t))
    · have hmem : s.getLastD '0' ∈ s := by
        rw [List.getLastD_eq_getLast?, List.getLast?_eq_getLast s hne]
        exact List.getLast_mem hne
      exact digit_not_ws (hd _ hmem)
  · intro hm
    have := hd _ hm
    exact absurd this (by decide)

/-- Dropping leading whitespace after appending one character. -/
theorem dropWhile_append_singleton (s : Line) (c : Char) :
    (s ++ [c]).dropWhile isWS
      = if (s.dropWhile isWS).isEmpty then ([c] : Line).dropWhile isWS
        else s.dropWhile isWS ++ [c] := by
  induction s with
  | nil => simp
  | cons a t ih =>
    by_cases ha : isWS a = true
    · rw [List.cons_append, List.dropWhile_cons_of_pos (by simp [ha]),
        List.dropWhile_cons_of_pos (by simp [ha])]
      exact ih
    · rw [List.cons_append, List.dropWhile_cons_of_neg (by simp [ha]),
        List.dropWhile_cons_of_neg (by simp [ha])]
      simp

/-- Stripping absorbs a trailing whitespace character. -/
theorem stripL_concat_ws (s : Line) (c : Char) (hc : isWS c = true) :
    stripL (s ++ [c]) = stripL s := by
  unfold stripL
  rw [dropWhile_append_singleton]
  by_cases he : (s.dropWhile isWS).isEmpty = true
  · rw [if_pos he]
    have h1 : ([c] : Line).dropWhile isWS = [] := by simp [hc]
    have h2 : s.dropWhile isWS = [] := List.isEmpty_iff.mp he
    rw [h1, h2]
  · rw [if_neg he]
    have h3 : (s.dropWhile isWS ++ [c]).reverse = c :: (s.dropWhile isWS).reverse := by
      simp
    rw [h3, List.dropWhile_cons_of_pos (by simp [hc])]

/-- The last element of a nonempty list (with default) is a member. -/
theorem getLastD_mem {α : Type} (l : List α) (h : l ≠ []) (d : α) :
    l.getLastD d ∈ l := by
  rw [List.getLastD_eq_getLast?, List.getLast?_eq_getLast l h]
  simp

/-- The document lines are the core lines plus a final blank line. -/
theorem srtDocLines_eq (cues : List (Line × Line × Line)) (h : cues ≠ []) :
    srtDocLines cues = srtDocCore cues ++ [[]] := by
  induction cues with
  | nil => cases h rfl
  | cons c cs ih =>
    cases cs with
    | nil => rfl
    | cons c2 cs2 =>
      show c.1 :: c.2.1 :: c.2.2 :: [] :: srtDocLines (c2 :: cs2)
          = (c.1 :: c.2.1 :: c.2.2 :: [] :: srtDocCore (c2 :: cs2)) ++ [[]]
      rw [ih (by simp)]
      simp

/-- The full VTT body is the core body plus a final blank line. -/
theorem vttBodyFull_eq (cues : List (Line × Line × Line)) (h : cues ≠ []) :
    vttBodyFull cues = vttBodyCore cues ++ [[]] := by
  induction cues with
  | nil => cases h rfl
  | cons c cs ih =>
    cases cs with
    | nil => rfl
    | cons c2 cs2 =>
      show replaceChar ',' '.' c.2.1 :: c.2.2 :: [] :: vttBodyFull (c2 :: cs2)
          = (replaceChar ',' '.' c.2.1 :: c.2.2 :: [] :: vttBodyCore (c2 :: cs2)) ++ [[]]
      rw [ih (by simp)]
      simp

/-- The core document lines of a nonempty cue list are nonempty. -/
theorem srtDocCore_ne_nil (cues : List (Line × Line × Line)) (h : cues ≠ []) :
    srtDocCore cues ≠ [] := by
  obtain ⟨c, cs, rfl⟩ := List.exists_cons_of_ne_nil h
  cases cs <;> simp [srtDocCore]

/-- The first core document line is the first cue's index line. -/
theorem srtDocCore_headD (c : Line × Line × Line) (cs : List (Line × Line × Line)) :
    (srtDocCore (c :: cs)).headD [] = c.1 := by
  cases cs <;> rfl

/-- The last core document line is the last cue's text line. -/
theorem srtDocCore_getLastD (cues : List (Line × Line × Line)) (h : cues ≠ []) :
    (srtDocCore cues).getLastD [] = (cues.getLastD ([], [], [])).2.2 := by
  induction cues with
  | nil => cases h rfl
  | cons c cs ih =>
    cases cs with
    | nil => rfl
    | cons c2 cs2 =>
      show (c.1 :: c.2.1 :: c.2.2 :: [] :: srtDocCore (c2 :: cs2)).getLastD []
          = ((c :: c2 :: cs2).getLastD ([], [], [])).2.2
      rw [List.getLastD_cons, List.getLastD_cons, List.getLastD_cons, List.getLastD_cons,
        getLastD_indep _ (srtDocCore_ne_nil _ (by simp)) [] [], ih (by simp)]
      simp [List.getLastD_cons]

/-- No core document line contains a newline, given well-formed cues. -/
theorem srtDocCore_no_newline (cues : List (Line × Line × Line))
    (h : ∀ c ∈ cues, wfCue c) : ∀ l ∈ srtDocCore cues, '\n' ∉ l := by
  induction cues with
  | nil => intro l hl; cases hl
  | cons c cs ih =>
    have hc := h c (List.mem_cons_self c cs)
    obtain ⟨hdig, ht, hx⟩ := hc
    cases cs with
    | nil =>
      intro l hl
      rcases hl with _ | ⟨_, _ | ⟨_, _ | ⟨_, hl⟩⟩⟩
      · exact (allDigits_strip hdig).2
      · exact ht.2.2.2.2.2
      · exact hx.2.2.2.2
      · cases hl
    | cons c2 cs2 =>
      intro l hl
      rcases hl with _ | ⟨_, _ | ⟨_, _ | ⟨_, _ | ⟨_, hl⟩⟩⟩⟩
      · exact (allDigits_strip hdig).2
      · exact ht.2.2.2.2.2
      · exact hx.2.2.2.2
      · simp
      · exact ih (fun y hy => h y (List.mem_cons_of_mem c hy)) l hl

/-- The core VTT body of a nonempty cue list is nonempty. -/
theorem vttBodyCore_ne_nil (cues : List (Line × Line × Line)) (h : cues ≠ []) :
    vttBodyCore cues ≠ [] := by
  obtain ⟨c, cs, rfl⟩ := List.exists_cons_of_ne_nil h
  cases cs <;> simp [vttBodyCore]

/-- The last core VTT body line is the last cue's text line. -/
theorem vttBodyCore_getLastD (cues : List (Line × Line × Line)) (h : cues ≠ []) :
    (vttBodyCore cues).getLastD [] = (cues.getLastD ([], [], [])).2.2 := by
  induction cues with
  | nil => cases h rfl
  | cons c cs ih =>
    cases cs with
    | nil => rfl
    | cons c2 cs2 =>
      show (replaceChar ',' '.' c.2.1 :: c.2.2 :: [] :: vttBodyCore (c2 :: cs2)).getLastD []
          = ((c :: c2 :: cs2).getLastD ([], [], [])).2.2
      rw [List.getLastD_cons, List.getLastD_cons, List.getLastD_cons,
        getLastD_indep _ (vttBodyCore_ne_nil _ (by simp)) [] [], ih (by simp)]
      simp [List.getLastD_cons]

/-- No core VTT body line contains a newline, given well-formed cues. -/
theorem vttBodyCore_no_newline (cues : List (Line × Line × Line))
    (h : ∀ c ∈ cues, wfCue c) : ∀ l ∈ vttBodyCore cues, '\n' ∉ l := by
  induction cues with
  | nil => intro l hl; cases hl
  | cons c cs ih =>
    have hc := h c (List.mem_cons_self c cs)
    obtain ⟨hdig, ht, hx⟩ := hc
    have htn : '\n' ∉ replaceChar ',' '.' c.2.1 :=
      not_mem_replaceChar_of ',' '.' '\n' c.2.1 ht.2.2.2.2.2 (by decide)
    cases cs with
    | nil =>
      intro l hl
      rcases hl with _ | ⟨_, _ | ⟨_, hl⟩⟩
      · exact htn
      · exact hx.2.2.2.2
      · cases hl
    | cons c2 cs2 =>
      intro l hl
      rcases hl with _ | ⟨_, _ | ⟨_, _ | ⟨_, hl⟩⟩⟩
      · exact htn
      · exact hx.2.2.2.2
      · simp
      · exact ih (fun y hy => h y (List.mem_cons_of_mem c hy)) l hl

/-- Seek step: a digit-only line opens a cue. -/
theorem srtGoS_seek_digit (x : Line) (h : isAllDigits (stripL x) = true)
    (r : List Line) : srtGoS .seek (x :: r) = srtGoS .timing r := by
  have hne : (stripL x).isEmpty = false :=
    List.isEmpty_eq_false.mpr (allDigits_facts h).1
  simp [srtGoS, hne, h]

/-- Text step: a nonempty non-digit line is collected (stripped). -/
theorem srtGoS_text_collect (x : Line) (hne : (stripL x).isEmpty = false)
    (hdig : isAllDigits (stripL x) = false) (r : List Line) :
    srtGoS .text (x :: r) = stripL x :: srtGoS .text r := by
  simp [srtGoS, hne, hdig]

/-- Text step: a blank line terminates the cue. -/
theorem srtGoS_text_blank (x : Line) (he : (stripL x).isEmpty = true)
    (r : List Line) : srtGoS .text (x :: r) = [] :: srtGoS .seek r := by
  simp [srtGoS, he]

/-- Phase 1 of the round trip: scanning the core document lines of
well-formed cues emits exactly the VTT body lines. -/
theorem srtGoS_doc (cues : List (Line × Line × Line))
    (h : ∀ c ∈ cues, wfCue c) :
    srtGoS .seek (srtDocCore cues) = vttBodyFull cues := by
  induction cues with
  | nil => rfl
  | cons c cs ih =>
    obtain ⟨hdig, ht, hx⟩ := h c (List.mem_cons_self c cs)
    have hidx : stripL c.1 = c.1 := (allDigits_strip hdig).1
    have hdig2 : isAllDigits (stripL c.1) = true := by rw [hidx]; exact hdig
    have hxne : (stripL c.2.2).isEmpty = false := by
      rw [hx.1]
      exact List.isEmpty_eq_false.mpr hx.2.1
    have hxdig : isAllDigits (stripL c.2.2) = false := by rw [hx.1]; exact hx.2.2.1
    cases cs with
    | nil =>
      show srtGoS .seek [c.1, c.2.1, c.2.2] = vttBodyFull [c]
      rw [srtGoS_seek_digit _ hdig2]
      show replaceChar ',' '.' (stripL c.2.1) :: srtGoS .text [c.2.2] = _
      rw [srtGoS_text_collect _ hxne hxdig, ht.1, hx.1]
      rfl
    | cons c2 cs2 =>
      show srtGoS .seek (c.1 :: c.2.1 :: c.2.2 :: [] :: srtDocCore (c2 :: cs2))
          = vttBodyFull (c :: c2 :: cs2)
      rw [srtGoS_seek_digit _ hdig2]
      show replaceChar ',' '.' (stripL c.2.1)
          :: srtGoS .text (c.2.2 :: [] :: srtDocCore (c2 :: cs2)) = _
      rw [srtGoS_text_collect _ hxne hxdig, srtGoS_text_blank _ (by rfl),
        ih fun y hy => h y (List.mem_cons_of_mem c hy), ht.1, hx.1]
      rfl

/-- Seek step of the `vtt` scanner: header, metadata and blank lines are
skipped. -/
theorem vttGoS_seek_skip (n : Nat) (x : Line) (r : List Line)
    (h : ("WEBVTT".data.isPrefixOf (stripL x) || "NOTE".data.isPrefixOf (stripL x)
      || (stripL x).isEmpty) = true) :
    vttGoS (.seek n) (x :: r) = vttGoS (.seek n) r := by
  simp [vttGoS, h]

/-- Seek step of the `vtt` scanner: a timing line opens cue `n`. -/
theorem vttGoS_seek_cue (n : Nat) (x : Line) (r : List Line)
    (h1 : ("WEBVTT".data.isPrefixOf (stripL x) || "NOTE".data.isPrefixOf (stripL x)
      || (stripL x).isEmpty) = false)
    (h2 : containsSub arrow (stripL x) = true) :
    vttGoS (.seek n) (x :: r)
      = natLine n :: replaceChar '.' ',' (stripL x) :: vttGoS (.text (n + 1)) r := by
  simp [vttGoS, h1, h2]

/-- Text step of the `vtt` scanner: a nonempty arrow-free line is
collected (stripped). -/
theorem vttGoS_text_collect (n : Nat) (x : Line) (r : List Line)
    (he : (stripL x).isEmpty = false) (ha : containsSub arrow (stripL x) = false) :
    vttGoS (.text n) (x :: r) = stripL x :: vttGoS (.text n) r := by
  simp [vttGoS, he, ha]

/-- Text step of the `vtt` scanner: a blank line terminates the cue. -/
theorem vttGoS_text_blank (n : Nat) (x : Line) (r : List Line)
    (he : (stripL x).isEmpty = true) :
    vttGoS (.text n) (x :: r) = [] :: vttGoS (.seek n) r := by
  simp [vttGoS, he]

/-- Properties of the period form of a well-formed timing line. -/
theorem wfTiming_replaced {t : Line} (h : wfTiming t) :
    stripL (replaceChar ',' '.' t) = replaceChar ',' '.' t
      ∧ ("WEBVTT".data.isPrefixOf (replaceChar ',' '.' t)
          || "NOTE".data.isPrefixOf (replaceChar ',' '.' t)
          || (replaceChar ',' '.' t).isEmpty) = false
      ∧ containsSub arrow (replaceChar ',' '.' t) = true := by
  obtain ⟨hs, hne, hhd, harr, hdot, hnl⟩ := h
  obtain ⟨c, rest, rfl⟩ := List.exists_cons_of_ne_nil hne
  have hcd : c.isDigit = true := by simpa using hhd
  have hcne : c ≠ ',' := (digit_ne hcd).2.2.1
  have ht2 : replaceChar ',' '.' (c :: rest) = c :: replaceChar ',' '.' rest := by
    simp [replaceChar, hcne]
  refine ⟨?_, ?_, ?_⟩
  · rw [stripL_replaceChar ',' '.' (by decide) (by decide), hs]
  · rw [ht2]
    have hW : "WEBVTT".data.isPrefixOf (c :: replaceChar ',' '.' rest) = false := by
      have he1 : "WEBVTT".data = 'W' :: "EBVTT".data := rfl
      rw [he1, List.isPrefixOf_cons₂]
      have he2 : ('W' == c) = false := by
        rw [beq_eq_false_iff_ne]
        exact Ne.symm (digit_ne hcd).1
      rw [he2, Bool.false_and]
    have hN : "NOTE".data.isPrefixOf (c :: replaceChar ',' '.' rest) = false := by
      have he1 : "NOTE".data = 'N' :: "OTE".data := rfl
      rw [he1, List.isPrefixOf_cons₂]
      have he2 : ('N' == c) = false := by
        rw [beq_eq_false_iff_ne]
        exact Ne.symm (digit_ne hcd).2.1
      rw [he2, Bool.false_and]
    simp [hW, hN]
  · exact containsSub_replaceChar ',' '.' arrow (c :: rest) (by decide) harr

/-- Phase 2 of the round trip: scanning the core VTT body of well-formed
cues from counter `n` emits the renumbered SRT blocks. -/
theorem vttGoS_body (cues : List (Line × Line × Line)) :
    (∀ c ∈ cues, wfCue c) → cues ≠ [] → ∀ n,
      vttGoS (.seek n) (vttBodyCore cues)
        = renderSrtBlocks n (cues.map fun c => (c.2.1, [c.2.2])) := by
  induction cues with
  | nil => intro _ hne; cases hne rfl
  | cons c cs ih =>
    intro h _ n
    obtain ⟨hdig, ht, hx⟩ := h c (List.mem_cons_self c cs)
    obtain ⟨hts, htp, hta⟩ := wfTiming_replaced ht
    have hrt : replaceChar '.' ',' (replaceChar ',' '.' c.2.1) = c.2.1 :=
      replaceChar_roundtrip _ ht.2.2.2.2.1
    have h1 : ("WEBVTT".data.isPrefixOf (stripL (replaceChar ',' '.' c.2.1))
        || "NOTE".data.isPrefixOf (stripL (replaceChar ',' '.' c.2.1))
        || (stripL (replaceChar ',' '.' c.2.1)).isEmpty) = false := by
      rw [hts]; exact htp
    have h2 : containsSub arrow (stripL (replaceChar ',' '.' c.2.1)) = true := by
      rw [hts]; exact hta
    have hxne : (stripL c.2.2).isEmpty = false := by
      rw [hx.1]; exact List.isEmpty_eq_false.mpr hx.2.1
    have hxarr : containsSub arrow (stripL c.2.2) = false := by
      rw [hx.1]; exact hx.2.2.2.1
    cases cs with
    | nil =>
      show vttGoS (.seek n) [replaceChar ',' '.' c.2.1, c.2.2] = _
      rw [vttGoS_seek_cue n _ _ h1 h2, vttGoS_text_collect _ _ _ hxne hxarr,
        hts, hrt, hx.1]
      rfl
    | cons c2 cs2 =>
      show vttGoS (.seek n)
          (replaceChar ',' '.' c.2.1 :: c.2.2 :: [] :: vttBodyCore (c2 :: cs2)) = _
      rw [vttGoS_seek_cue n _ _ h1 h2, vttGoS_text_collect _ _ _ hxne hxarr,
        vttGoS_text_blank _ _ _ (by rfl),
        ih (fun y hy => h y (List.mem_cons_of_mem c hy)) (by simp) (n + 1),
        hts, hrt, hx.1]
      rfl

/-- C2 amended: the full round trip.  For well-formed cues (digit index
line; timing line with no surrounding whitespace, digit-initial, with the
arrow token, period-free, newline-free — every valid comma timestamp line
qualifies; one text line that is non-blank, not digit-only, arrow-free,
newline-free, with no surrounding whitespace), converting the rendered
numbered-block document to the cue-track convention and back yields the
same cues in the same order — same count, same text line per cue, same
timing line — with the indices renumbered `1..N`. -/
theorem round_trip_renumbered (cues : List (Line × Line × Line))
    (h : ∀ c ∈ cues, wfCue c) :
    vtt_to_srt (srt_to_vtt (renderSrtDoc cues))
      = joinLines (renderSrtBlocks 1 (cues.map fun c => (c.2.1, [c.2.2]))) := by
  cases cues with
  | nil => rfl
  | cons c0 cs0 =>
    have hne : (c0 :: cs0 : List (Line × Line × Line)) ≠ [] := by simp
    have hcore_ne := srtDocCore_ne_nil _ hne
    have hlastcue := getLastD_mem _ hne (([], [], []) : Line × Line × Line)
    obtain ⟨hldig, hlt, hlx⟩ := h _ hlastcue
    have hlx_ends := stripL_self_ends hlx.1 hlx.2.1
    obtain ⟨hdig0, ht0, hx0⟩ := h c0 (List.mem_cons_self c0 cs0)
    have hidx0_ne : c0.1 ≠ [] := (allDigits_facts hdig0).1
    have hidx0_hd : isWS (c0.1.headD '0') = false := by
      obtain ⟨ch, tl, he⟩ := List.exists_cons_of_ne_nil hidx0_ne
      rw [he]
      exact digit_not_ws ((allDigits_facts hdig0).2 ch (he ▸ List.mem_cons_self ch tl))
    have hhead : isWS ((joinLines (srtDocCore (c0 :: cs0))).headD '0') = false := by
      obtain ⟨l0, ls0, hcore⟩ := List.exists_cons_of_ne_nil hcore_ne
      have hl0 : l0 = c0.1 := by
        have h2 := srtDocCore_headD c0 cs0
        rw [hcore] at h2
        simpa using h2
      rw [hcore, headD_joinLines l0 ls0 (hl0 ▸ hidx0_ne) '0', hl0]
      exact hidx0_hd
    have hlastne : (srtDocCore (c0 :: cs0)).getLastD [] ≠ [] := by
      rw [srtDocCore_getLastD _ hne]
      exact hlx.2.1
    have hlast : isWS ((joinLines (srtDocCore (c0 :: cs0))).getLastD '0') = false := by
      rw [getLastD_joinLines _ hlastne '0', srtDocCore_getLastD _ hne]
      exact hlx_ends.2
    have hA : splitLines (stripL (renderSrtDoc (c0 :: cs0))) = srtDocCore (c0 :: cs0) := by
      unfold renderSrtDoc
      rw [srtDocLines_eq _ hne, joinLines_concat_nil _ hcore_ne,
        stripL_concat_ws _ '\n' (by decide), stripL_eq_self hhead hlast,
        splitLines_joinLines _ hcore_ne (srtDocCore_no_newline _ h)]
    have hB : srt_to_vtt (renderSrtDoc (c0 :: cs0))
        = joinLines ("WEBVTT".data :: [] :: vttBodyFull (c0 :: cs0)) := by
      unfold srt_to_vtt
      rw [hA, srtGoS_doc _ h]
    have hC : "WEBVTT".data :: [] :: vttBodyFull (c0 :: cs0)
        = ("WEBVTT".data :: [] :: vttBodyCore (c0 :: cs0)) ++ [[]] := by
      rw [vttBodyFull_eq _ hne]
      simp
    have hlcore : ("WEBVTT".data :: [] :: vttBodyCore (c0 :: cs0)).getLastD []
        = (vttBodyCore (c0 :: cs0)).getLastD [] := by
      rw [List.getLastD_cons, List.getLastD_cons]
    have hlastne2 : ("WEBVTT".data :: [] :: vttBodyCore (c0 :: cs0)).getLastD [] ≠ [] := by
      rw [hlcore, vttBodyCore_getLastD _ hne]
      exact hlx.2.1
    have hhead2 : isWS ((joinLines ("WEBVTT".data :: [] :: vttBodyCore (c0 :: cs0))).headD '0')
        = false := by
      rw [headD_joinLines _ _ (by decide) '0']
      decide
    have hlast2 : isWS ((joinLines ("WEBVTT".data :: [] :: vttBodyCore (c0 :: cs0))).getLastD '0')
        = false := by
      rw [getLastD_joinLines _ hlastne2 '0', hlcore, vttBodyCore_getLastD _ hne]
      exact hlx_ends.2
    have hnl2 : ∀ l ∈ "WEBVTT".data :: [] :: vttBodyCore (c0 :: cs0), '\n' ∉ l := by
      intro l hl
      rcases List.mem_cons.mp hl with rfl | hl2
      · decide
      · rcases List.mem_cons.mp hl2 with rfl | hl3
        · simp
        · exact vttBodyCore_no_newline _ h l hl3
    have hD : splitLines (stripL (joinLines
          (("WEBVTT".data :: [] :: vttBodyCore (c0 :: cs0)) ++ [[]])))
        = "WEBVTT".data :: [] :: vttBodyCore (c0 :: cs0) := by
      rw [joinLines_concat_nil _ (by simp), stripL_concat_ws _ '\n' (by decide),
        stripL_eq_self hhead2 hlast2, splitLines_joinLines _ (by simp) hnl2]
    unfold vtt_to_srt
    rw [hB, hC, hD, vttGoS_seek_skip 1 _ _ (by decide), vttGoS_seek_skip 1 _ _ (by decide),
      vttGoS_body _ h hne 1]

/-- Counterexample to C2 as stated: the document
`"1\n00:00:01,000 --> 00:00:02,000\n123"` has one cue with the single
non-blank text line `123` and a valid comma timestamp, yet the round trip
returns a document in which the text line has vanished (a digit-only text
line is consumed as a new cue marker). -/
theorem round_trip_counterexample :
    vtt_to_srt (srt_to_vtt "1\n00:00:01,000 --> 00:00:02,000\n123".data)
        = "1\n00:00:01,000 --> 00:00:02,000\n".data
      ∧ containsSub "123".data
          (vtt_to_srt (srt_to_vtt "1\n00:00:01,000 --> 00:00:02,000\n123".data))
        = false := by
  decide

/-- Witness for the amended C2 at a concrete well-formed one-cue document. -/
theorem round_trip_renumbered_witness :
    (∀ c ∈ [(("1".data : Line), ("00:00:01,000 --> 00:00:02,000".data : Line),
        ("Hello world".data : Line))], wfCue c)
      ∧ vtt_to_srt (srt_to_vtt (renderSrtDoc
          [("1".data, "00:00:01,000 --> 00:00:02,000".data, "Hello world".data)]))
        = joinLines (renderSrtBlocks 1
            (List.map (fun c => (c.2.1, [c.2.2]))
              [(("1".data : Line), ("00:00:01,000 --> 00:00:02,000".data : Line),
                ("Hello world".data : Line))])) :=
  ⟨by decide,
   round_trip_renumbered
     [("1".data, "00:00:01,000 --> 00:00:02,000".data, "Hello world".data)]
     (by decide)⟩

/-- Containment survives appending on the right. -/
theorem containsSub_append_right (n l m : Line) (h : containsSub n l = true) :
    containsSub n (l ++ m) = true := by
  obtain ⟨u, v, rfl⟩ := (containsSub_iff n l).mp h
  exact (containsSub_iff n _).mpr ⟨u, v ++ m, by simp⟩

/-- Appending a character other than the token's last one cannot create a
new occurrence of the `-->` token. -/
theorem containsSub_arrow_concat (l : Line) (c : Char) (hc : c ≠ '>') :
    containsSub arrow (l ++ [c]) = containsSub arrow l := by
  by_cases h : containsSub arrow l = true
  · rw [h]
    exact containsSub_append_right arrow l [c] h
  · have h2 : containsSub arrow l = false := by
      rwa [Bool.not_eq_true] at h
    rw [h2]
    by_contra h3
    rw [Bool.not_eq_false] at h3
    obtain ⟨u, v, huv⟩ := (containsSub_iff arrow _).mp h3
    rcases List.eq_nil_or_concat v with rfl | ⟨v2, c2, rfl⟩
    · have e1 : (l ++ [c]).getLastD ' ' = c := by
        rw [List.getLastD_eq_getLast?, List.getLast?_concat]
        rfl
      have e2 : (u ++ arrow ++ []).getLastD ' ' = '>' := by
        rw [List.append_nil, List.getLastD_eq_getLast?,
          List.getLast?_append_of_ne_nil _ (by decide)]
        rfl
      rw [huv, e2] at e1
      exact hc e1.symm
    · rw [List.concat_eq_append] at huv
      have hassoc : u ++ arrow ++ (v2 ++ [c2]) = (u ++ arrow ++ v2) ++ [c2] := by
        simp
      rw [hassoc] at huv
      have hlen : l.length = (u ++ arrow ++ v2).length := by
        have hle := congrArg List.length huv
        simp only [List.length_append, List.length_cons, List.length_nil] at hle ⊢
        omega
      obtain ⟨hl, -⟩ := List.append_inj huv hlen
      rw [hl] at h2
      have : containsSub arrow (u ++ arrow ++ v2) = true := by
        refine (containsSub_iff arrow _).mpr ⟨u, v2, by simp⟩
      rw [this] at h2
      cases h2

/-- Membership test after appending one character. -/
theorem contains_concat (l : Line) (c ch : Char) :
    (l ++ [c]).contains ch = (l.contains ch || (ch == c)) := by
  induction l with
  | nil =>
    rw [List.nil_append, List.contains_cons]
    have h0 : ([] : Line).contains ch = false := rfl
    rw [h0, Bool.or_false, Bool.false_or]
  | cons a l ih =>
    rw [List.cons_append, List.contains_cons, List.contains_cons, ih, Bool.or_assoc]

/-- The per-line test ignores an appended whitespace character. -/
theorem tok_line_concat (l : Line) (c ch : Char) (hcws : isWS c = true)
    (hch : isWS ch = false) :
    (containsSub arrow (l ++ [c]) && (l ++ [c]).contains ch)
      = (containsSub arrow l && l.contains ch) := by
  have hc1 : c ≠ '>' := by
    rintro rfl
    exact absurd hcws (by decide)
  have hc2 : (ch == c) = false := by
    rw [beq_eq_false_iff_ne]
    rintro rfl
    rw [hcws] at hch
    cases hch
  rw [containsSub_arrow_concat l c hc1, contains_concat, hc2, Bool.or_false]

/-- The per-line test ignores a prepended whitespace character. -/
theorem tok_line_cons (l : Line) (c ch : Char) (hcws : isWS c = true)
    (hch : isWS ch = false) :
    (containsSub arrow (c :: l) && (c :: l).contains ch)
      = (containsSub arrow l && l.contains ch) := by
  have hc1 : ('-' == c) = false := by
    rw [beq_eq_false_iff_ne]
    rintro rfl
    exact absurd hcws (by decide)
  have hc2 : (ch == c) = false := by
    rw [beq_eq_false_iff_ne]
    rintro rfl
    rw [hcws] at hch
    cases hch
  have harr : containsSub arrow (c :: l) = containsSub arrow l := by
    simp only [containsSub]
    have : arrow.isPrefixOf (c :: l) = false := by
      have ha : arrow = '-' :: ['-', '>'] := rfl
      rw [ha, List.isPrefixOf_cons₂, hc1, Bool.false_and]
    rw [this, Bool.false_or]
  rw [harr, List.contains_cons, hc2, Bool.false_or]

/-- A string containing a newline splits as a newline-free first line, the
newline, and the rest. -/
theorem exists_first_line {s : Line} (h : '\n' ∈ s) :
    ∃ l s2, s = l ++ '\n' :: s2 ∧ '\n' ∉ l := by
  induction s with
  | nil => cases h
  | cons c rest ih =>
    by_cases hc : c = '\n'
    · exact ⟨[], rest, by rw [hc]; rfl, by simp⟩
    · have hmem : '\n' ∈ rest := by
        rcases List.mem_cons.mp h with he | hm
        · exact absurd he.symm hc
        · exact hm
      obtain ⟨l, s2, he, hl⟩ := ih hmem
      refine ⟨c :: l, s2, by rw [he]; rfl, ?_⟩
      intro hm
      rcases List.mem_cons.mp hm with he2 | hm2
      · exact hc he2.symm
      · exact hl hm2

/-- The document-level token test ignores a trailing whitespace
character. -/
theorem hasTokenLine_concat_ws (ch : Char) (hch : isWS ch = false) :
    ∀ N s (c : Char), s.length ≤ N → isWS c = true →
      hasTokenLine ch (s ++ [c]) = hasTokenLine ch s := by
  intro N
  induction N with
  | zero =>
    intro s c hlen hc
    have hs : s = [] := List.eq_nil_of_length_eq_zero (Nat.le_zero.mp hlen)
    subst hs
    by_cases hcn : c = '\n'
    · subst hcn
      rfl
    · unfold hasTokenLine
      rw [List.nil_append,
        splitLines_no_newline [c] (fun hm => hcn (List.mem_singleton.mp hm).symm)]
      simp only [splitLines, List.any_cons, List.any_nil]
      have h1 : containsSub arrow [c] = false := by
        simp only [containsSub]
        have : arrow.isPrefixOf [c] = false := by
          have ha : arrow = '-' :: ['-', '>'] := rfl
          rw [ha, List.isPrefixOf_cons₂]
          have : (['-', '>'] : Line).isPrefixOf [] = false := rfl
          rw [this, Bool.and_false]
        rw [this]
        rfl
      rw [h1]
      rfl
  | succ N ih =>
    intro s c hlen hc
    by_cases hnl : '\n' ∈ s
    · obtain ⟨l, s2, rfl, hlnl⟩ := exists_first_line hnl
      have hre : (l ++ '\n' :: s2) ++ [c] = l ++ '\n' :: (s2 ++ [c]) := by simp
      unfold hasTokenLine
      rw [hre, splitLines_newline_cons l hlnl (s2 ++ [c]), splitLines_newline_cons l hlnl s2,
        List.any_cons, List.any_cons]
      have hlen2 : s2.length ≤ N := by
        have := congrArg List.length (rfl : l ++ '\n' :: s2 = l ++ '\n' :: s2)
        simp only [List.length_append, List.length_cons] at hlen
        omega
      have := ih s2 c hlen2 hc
      unfold hasTokenLine at this
      rw [this]
    · by_cases hcn : c = '\n'
      · subst hcn
        unfold hasTokenLine
        rw [splitLines_newline_cons s hnl [], splitLines_no_newline s hnl]
        simp only [splitLines, List.any_cons, List.any_nil]
        have h1 : containsSub arrow ([] : Line) = false := rfl
        rw [h1]
        simp
      · have hsnl : '\n' ∉ s ++ [c] := by
          intro hm
          rcases List.mem_append.mp hm with hm1 | hm2
          · exact hnl hm1
          · rcases List.mem_singleton.mp hm2 with rfl
            exact hcn rfl
        unfold hasTokenLine
        rw [splitLines_no_newline _ hsnl, splitLines_no_newline s hnl]
        simp only [List.any_cons, List.any_nil, Bool.or_false]
        exact tok_line_concat s c ch hc hch

/-- The document-level token test is unchanged by dropping leading
whitespace. -/
theorem hasTokenLine_ldrop (ch : Char) (hch : isWS ch = false) (s : Line) :
    hasTokenLine ch (s.dropWhile isWS) = hasTokenLine ch s := by
  induction s with
  | nil => rfl
  | cons c rest ih =>
    by_cases hc : isWS c = true
    · rw [List.dropWhile_cons_of_pos (by simp [hc]), ih]
      by_cases hcn : c = '\n'
      · subst hcn
        unfold hasTokenLine
        have hsp : splitLines ('\n' :: rest) = [] :: splitLines rest := by
          simp only [splitLines]
          cases hs : splitLines rest with
          | nil => exact absurd hs (splitLines_ne_nil rest)
          | cons a as => simp
        rw [hsp, List.any_cons]
        have h1 : containsSub arrow ([] : Line) = false := rfl
        rw [h1]
        simp
      · obtain ⟨l, ls, hs⟩ : ∃ l ls, splitLines rest = l :: ls := by
          cases hs : splitLines rest with
          | nil => exact absurd hs (splitLines_ne_nil rest)
          | cons a as => exact ⟨a, as, rfl⟩
        have hsp : splitLines (c :: rest) = (c :: l) :: ls := by
          simp only [splitLines, hs]
          rw [if_neg hcn]
        unfold hasTokenLine
        rw [hsp, hs, List.any_cons, List.any_cons, tok_line_cons l c ch hc hch]
    · rw [List.dropWhile_cons_of_neg (by simp [hc])]

/-- The document-level token test is unchanged by dropping trailing
whitespace. -/
theorem hasTokenLine_rdrop (ch : Char) (hch : isWS ch = false) :
    ∀ N s, s.length ≤ N →
      hasTokenLine ch (s.reverse.dropWhile isWS).reverse = hasTokenLine ch s := by
  intro N
  induction N with
  | zero =>
    intro s hlen
    have hs : s = [] := List.eq_nil_of_length_eq_zero (Nat.le_zero.mp hlen)
    subst hs
    rfl
  | succ N ih =>
    intro s hlen
    cases hrev : s.reverse with
    | nil =>
      have hs : s = [] := by
        have := congrArg List.reverse hrev
        simpa using this
      subst hs
      rfl
    | cons c t =>
      have hs : s = t.reverse ++ [c] := by
        have := congrArg List.reverse hrev
        simpa using this
      by_cases hc : isWS c = true
      · rw [List.dropWhile_cons_of_pos (by simp [hc])]
        have ht : t.dropWhile isWS = t.reverse.reverse.dropWhile isWS := by
          rw [List.reverse_reverse]
        have hlen2 : t.reverse.length ≤ N := by
          have := congrArg List.length hs
          simp only [List.length_append, List.length_cons, List.length_reverse,
            List.length_nil] at this
          simp only [List.length_reverse]
          omega
        rw [ht, ih t.reverse hlen2, hs,
          hasTokenLine_concat_ws ch hch (t.reverse.length) t.reverse c (le_refl _) hc]
      · rw [List.dropWhile_cons_of_neg (by simp [hc]), ← hrev, List.reverse_reverse]

/-- The document-level token test ignores stripping. -/
theorem hasTokenLine_stripL (ch : Char) (hch : isWS ch = false) (s : Line) :
    hasTokenLine ch (stripL s) = hasTokenLine ch s := by
  unfold stripL
  rw [hasTokenLine_rdrop ch hch (s.dropWhile isWS).length (s.dropWhile isWS) (le_refl _),
    hasTokenLine_ldrop ch hch s]

/-- C8 amended: `validate_srt content` is true exactly when some line of
`content` contains both `-->` and a comma (as claimed); `validate_vtt
content` is true exactly when one of the first three lines of the
whitespace-stripped content, itself stripped, starts with `WEBVTT`, and
some line of `content` contains both `-->` and a period.  Both predicates
are total functions. -/
theorem validator_predicates (content : Line) :
    validate_srt content = hasTokenLine ',' content
      ∧ validate_vtt content
        = (((splitLines (stripL content)).take 3).any
              (fun line => "WEBVTT".data.isPrefixOf (stripL line))
            && hasTokenLine '.' content) := by
  constructor
  · show hasTokenLine ',' (stripL content) = hasTokenLine ',' content
    exact hasTokenLine_stripL ',' (by decide) content
  · show (_ && hasTokenLine '.' (stripL content)) = _
    rw [hasTokenLine_stripL '.' (by decide) content]

/-- Counterexample to C8 as stated: with three leading blank lines, none
of the first three lines of the content starts with `WEBVTT`, yet
`validate_vtt` answers true because it strips the content first. -/
theorem validator_predicates_counterexample :
    validate_vtt "\n\n\nWEBVTT\n00:00:01.000 --> 00:00:02.000".data = true
      ∧ claimedValidateVtt "\n\n\nWEBVTT\n00:00:01.000 --> 00:00:02.000".data = false := by
  decide
